import Mathlib

/-!
Shallow embedding of the ArxivRAG chunking engine, retrieval step and
metric aggregation (src/chunking.py, src/metrics.py, src/evaluation.py,
src/rag.py), together with proofs settling the frozen claims about the
natural-language specification.

Conventions:
* Python strings are `List Char`; texts in the repository are ASCII.
* Python `while` loops that advance a start index are modelled as
  fuel-indexed structural recursion over the remaining suffix; the fuel
  `length + 1` strictly dominates the number of iterations because every
  iteration consumes at least one element, so the model agrees with the
  loop on every input reachable from the public entry points.
* Python floats are modelled as `ℚ`; the external libraries (numpy,
  sklearn, tiktoken, nltk) are modelled at the interface the source uses,
  as noted at each definition.
-/

/-- Whitespace test used by Python's `str.strip()`, restricted to the ASCII
whitespace characters (the corpus handled by the repository is ASCII). -/
def pyIsSpace (c : Char) : Bool :=
  c = ' ' || c = '\t' || c = '\n' || c = '\r' || c = '\x0b' || c = '\x0c'

/-- Python `str.strip()`: drop whitespace from both ends. -/
def pyStrip (l : List Char) : List Char :=
  ((l.dropWhile pyIsSpace).reverse.dropWhile pyIsSpace).reverse

/-- Python `s[-n:]` for `n > 0`: the trailing `n` characters (the whole
string when it is shorter than `n`). -/
def pyTakeLast (n : ℕ) (l : List Char) : List Char :=
  l.drop (l.length - n)

/-- Python `sep.join(pieces)`. -/
def joinWith (sep : List Char) : List (List Char) → List Char
  | [] => []
  | [x] => x
  | x :: y :: rest => x ++ sep ++ joinWith sep (y :: rest)

/-- Python substring containment `pat in text`. -/
def containsSub (pat : List Char) : List Char → Bool
  | [] => pat.isEmpty
  | c :: rest => pat.isPrefixOf (c :: rest) || containsSub pat rest

/-- Worker for `splitOnSub`; the fuel dominates the number of loop steps.
`acc` holds the characters of the current piece in reverse. -/
def splitOnSubAux (sep : List Char) : ℕ → List Char → List Char → List (List Char)
  | 0, acc, _ => [acc.reverse]
  | _ + 1, acc, [] => [acc.reverse]
  | fuel + 1, acc, c :: rest =>
    if sep.isPrefixOf (c :: rest) then
      acc.reverse :: splitOnSubAux sep fuel [] ((c :: rest).drop sep.length)
    else
      splitOnSubAux sep fuel (c :: acc) rest

/-- Python `text.split(sep)` for a non-empty separator `sep`: split on every
occurrence, keeping empty pieces. -/
def splitOnSub (sep text : List Char) : List (List Char) :=
  splitOnSubAux sep (text.length + 1) [] text

/-- Worker shared by `_fixed_size_chunking` and `_token_based_chunking`
(src/chunking.py lines 66-83 and 96-116): both slide a window of `size`
elements with stride `step = size - overlap` over a sequence, render the
window with `f` (the identity for characters, the tokenizer's `decode` for
tokens), and keep the rendered window only when it is non-whitespace after
stripping.  Fuel-indexed translation of `while start < len: ...`. -/
def slidingAux {α : Type} (size step : ℕ) (f : List α → List Char) :
    ℕ → List α → List (List Char)
  | 0, _ => []
  | _ + 1, [] => []
  | fuel + 1, x :: rest =>
    (if pyStrip (f ((x :: rest).take size)) ≠ [] then [f ((x :: rest).take size)] else []) ++
      slidingAux size step f fuel ((x :: rest).drop step)

/-- Window loop including the source's infinite-loop guard: when
`chunk_size <= chunk_overlap` the Python loop body runs once (if the input
is non-empty) and then breaks. -/
def slidingChunks {α : Type} (size overlap : ℕ) (f : List α → List Char)
    (xs : List α) : List (List Char) :=
  if size ≤ overlap then
    if xs.isEmpty then []
    else if pyStrip (f (xs.take size)) ≠ [] then [f (xs.take size)] else []
  else slidingAux size (size - overlap) f (xs.length + 1) xs

/-- `Chunker._fixed_size_chunking` (src/chunking.py lines 66-83). -/
def fixed_size_chunking (size overlap : ℕ) (text : List Char) : List (List Char) :=
  slidingChunks size overlap id text

/-- `MetricsCalculator.calculate_recall_at_k` (src/metrics.py lines 93-122):
`len(set(retrieved_ids[:k]) & set(relevant_ids)) / len(relevant_ids)`, and
`0.0` when `relevant_ids` is empty.  The size of the Python set
intersection `set(top_k) & set(relevant_ids)` is the number of distinct
elements of `top_k` that occur in `relevant_ids`, counted here by
deduplicating and filtering; the float result is modelled in `ℚ`. -/
def calculate_recall_at_k (retrieved_ids relevant_ids : List String) (k : ℕ) : ℚ :=
  if relevant_ids = [] then 0
  else (((retrieved_ids.take k).dedup.filter (fun x => x ∈ relevant_ids)).length : ℚ) /
    relevant_ids.length

/-- Choice of separator in `Chunker._recursive_split` (src/chunking.py lines
171-180): the first separator of the priority list that is the empty string
or occurs in the text; if none matches, the last entry of the list. -/
def chooseSeparator (separators : List (List Char)) (text : List Char) : List Char :=
  match separators.find? (fun sep => sep.isEmpty || containsSub sep text) with
  | some sep => if sep.isEmpty then [] else sep
  | none => separators.getLastD []

/-- Merge loop of `Chunker._recursive_split` (src/chunking.py lines 188-211):
greedily pack pieces into `current`; on overflow emit the stripped buffer
when it is non-blank (also updating `previous`), then restart the buffer
from the trailing `overlap` characters of the untrimmed `previous` buffer
when `overlap > 0` and a buffer was flushed before. -/
def mergeSplits (size overlap : ℕ) (sep : List Char) :
    List (List Char) → List Char → List Char → List (List Char)
  | [], current, _ => if pyStrip current ≠ [] then [pyStrip current] else []
  | s :: rest, current, previous =>
    if current.length + s.length + sep.length ≤ size then
      mergeSplits size overlap sep rest (current ++ s ++ sep) previous
    else
      (if pyStrip current ≠ [] then [pyStrip current] else []) ++
        (let previous' := if pyStrip current ≠ [] then current else previous
        let current' :=
          if 0 < overlap ∧ previous' ≠ [] then pyTakeLast overlap previous' ++ s ++ sep
          else s ++ sep
        mergeSplits size overlap sep rest current' previous')

/-- `Chunker._recursive_split` (src/chunking.py lines 168-213). -/
def recursive_split (size overlap : ℕ) (separators : List (List Char))
    (text : List Char) : List (List Char) :=
  let separator := chooseSeparator separators text
  let splits :=
    if separator ≠ [] then splitOnSub separator text else text.map (fun c => [c])
  mergeSplits size overlap separator splits [] []

/-- `Chunker._recursive_chunking` (src/chunking.py lines 163-166). -/
def recursive_chunking (size overlap : ℕ) (text : List Char) : List (List Char) :=
  recursive_split size overlap [['\n', '\n'], ['\n'], ['.', ' '], [' '], []] text

/-- `Chunker._paragraph_chunking` (src/chunking.py lines 215-236): split on
double newlines, strip, drop blanks; with positive overlap, each paragraph
after the first is preceded by the trailing `overlap` characters of the
previous paragraph (all of it when it is not longer than `overlap`) and the
double-newline separator. -/
def paragraph_chunking (overlap : ℕ) (text : List Char) : List (List Char) :=
  if overlap = 0 then ((splitOnSub ['\n', '\n'] text).map pyStrip).filter (fun p => p ≠ [])
  else
    match ((splitOnSub ['\n', '\n'] text).map pyStrip).filter (fun p => p ≠ []) with
    | [] => []
    | p0 :: rest =>
      p0 :: List.zipWith
        (fun prev para =>
          (if overlap < prev.length then pyTakeLast overlap prev else prev) ++
            ['\n', '\n'] ++ para)
        (p0 :: rest) rest

/-- Overlap lookback of `Chunker._sentence_based_chunking` (src/chunking.py
lines 139-149): walk the flushed sentence list in reverse, prepending whole
sentences while the joined text stays within `overlap`; stop at the first
sentence that does not fit.  Returns the kept sentences and the joined
text whose length becomes the new `current_size`. -/
def sentenceOverlap (overlap : ℕ) :
    List (List Char) → List (List Char) → List Char → List (List Char) × List Char
  | [], acc, txt => (acc, txt)
  | sent :: rest, acc, txt =>
    if txt.length + sent.length ≤ overlap then
      sentenceOverlap overlap rest (sent :: acc) (joinWith [' '] (sent :: acc))
    else (acc, txt)

/-- Main loop of `Chunker._sentence_based_chunking` (src/chunking.py lines
130-159): accumulate sentences; when the next sentence would push the
buffer past `size` and the buffer is non-empty, flush it joined by spaces
and seed the next buffer with the overlap lookback. -/
def sentenceLoop (size overlap : ℕ) :
    List (List Char) → List (List Char) → ℕ → List (List Char)
  | [], current, _ => if current ≠ [] then [joinWith [' '] current] else []
  | sent :: rest, current, curSize =>
    if size < curSize + sent.length ∧ current ≠ [] then
      joinWith [' '] current ::
        (let seeded :=
          if 0 < overlap then sentenceOverlap overlap current.reverse [] []
          else ([], [])
        sentenceLoop size overlap rest (seeded.1 ++ [sent])
          (seeded.2.length + (sent.length + 1)))
    else sentenceLoop size overlap rest (current ++ [sent]) (curSize + (sent.length + 1))

/-- External collaborator interface of the `token` strategy: `tiktoken`'s
`encode`/`decode` pair, used by the source only through these two calls. -/
structure Tokenizer where
  encode : List Char → List ℕ
  decode : List ℕ → List Char

/-- State of `Chunker.__init__` (src/chunking.py lines 13-34): the strategy
name is a plain string, compared by equality at dispatch time.  The
sentence splitter (`nltk.sent_tokenize`) and the optional token codec
(`tiktoken`, `None` when loading failed) are external collaborators and
are carried as function-valued fields. -/
structure Chunker where
  strategy : String
  chunk_size : ℕ
  chunk_overlap : ℕ
  tokenizer : Option Tokenizer
  sent_tokenize : List Char → List (List Char)

/-- `Chunker._token_based_chunking` (src/chunking.py lines 85-116): with a
tokenizer, slide a token window and decode it, keeping non-blank decodes;
without one, fall back to fixed-size character chunking at four characters
per token. -/
def token_based_chunking (c : Chunker) (text : List Char) : List (List Char) :=
  match c.tokenizer with
  | none => fixed_size_chunking (c.chunk_size * 4) (c.chunk_overlap * 4) text
  | some tk => slidingChunks c.chunk_size c.chunk_overlap tk.decode (tk.encode text)

/-- `Chunker._sentence_based_chunking` (src/chunking.py lines 118-161). -/
def sentence_based_chunking (c : Chunker) (text : List Char) : List (List Char) :=
  sentenceLoop c.chunk_size c.chunk_overlap (c.sent_tokenize text) [] 0

/-- `Chunker.chunk_text` (src/chunking.py lines 48-64): empty input yields
an empty list before the strategy dispatch; an unrecognized strategy name
raises `ValueError` (modelled as `Except.error`). -/
def chunk_text (c : Chunker) (text : List Char) : Except String (List (List Char)) :=
  if text = [] then .ok []
  else if c.strategy = "fixed" then
    .ok (fixed_size_chunking c.chunk_size c.chunk_overlap text)
  else if c.strategy = "recursive" then
    .ok (recursive_chunking c.chunk_size c.chunk_overlap text)
  else if c.strategy = "paragraph" then
    .ok (paragraph_chunking c.chunk_overlap text)
  else if c.strategy = "token" then
    .ok (token_based_chunking c text)
  else if c.strategy = "sentence" then
    .ok (sentence_based_chunking c text)
  else .error ("Unknown strategy: " ++ c.strategy)

/-- Merge loop as the specification words it (spec §4.1, Recursive): "flush
the buffer (trimmed) as a chunk, and seed the next buffer with the trailing
`chunk_overlap` characters of the just-flushed chunk before appending the
piece that triggered the flush".  The seed is taken from the trimmed
just-flushed chunk; this definition exists only to be compared against
`mergeSplits`, which is translated from the source. -/
def mergeSplitsSpec (size overlap : ℕ) (sep : List Char) :
    List (List Char) → List Char → List (List Char)
  | [], current => if pyStrip current ≠ [] then [pyStrip current] else []
  | s :: rest, current =>
    if current.length + s.length + sep.length ≤ size then
      mergeSplitsSpec size overlap sep rest (current ++ s ++ sep)
    else
      pyStrip current ::
        (let current' :=
          if 0 < overlap then pyTakeLast overlap (pyStrip current) ++ s ++ sep
          else s ++ sep
        mergeSplitsSpec size overlap sep rest current')

/-- Recursive chunking as the specification words it: same separator choice
and split as the source, but merging with `mergeSplitsSpec`. -/
def recursive_chunking_spec (size overlap : ℕ) (text : List Char) : List (List Char) :=
  let separator := chooseSeparator [['\n', '\n'], ['\n'], ['.', ' '], [' '], []] text
  let splits :=
    if separator ≠ [] then splitOnSub separator text else text.map (fun c => [c])
  mergeSplitsSpec size overlap separator splits []

/-- Merge loop as amended: the overlap seed is the trailing `chunk_overlap`
characters of the untrimmed just-flushed buffer (which still carries its
trailing separator), and a buffer that is whitespace-only at flush time is
not emitted — the seed then comes from the last buffer that was actually
flushed, or is absent if none was. -/
def mergeSplitsAmended (size overlap : ℕ) (sep : List Char) :
    List (List Char) → List Char → Option (List Char) → List (List Char)
  | [], current, _ => if pyStrip current ≠ [] then [pyStrip current] else []
  | s :: rest, current, flushed =>
    if current.length + s.length + sep.length ≤ size then
      mergeSplitsAmended size overlap sep rest (current ++ s ++ sep) flushed
    else
      let flushed' := if pyStrip current ≠ [] then some current else flushed
      let current' :=
        match flushed' with
        | some p => if 0 < overlap then pyTakeLast overlap p ++ s ++ sep else s ++ sep
        | none => s ++ sep
      (if pyStrip current ≠ [] then [pyStrip current] else []) ++
        mergeSplitsAmended size overlap sep rest current' flushed'

/-- Recursive chunking per the amended claim, built on `mergeSplitsAmended`. -/
def recursive_chunking_amended (size overlap : ℕ) (text : List Char) : List (List Char) :=
  let separator := chooseSeparator [['\n', '\n'], ['\n'], ['.', ' '], [' '], []] text
  let splits :=
    if separator ≠ [] then splitOnSub separator text else text.map (fun c => [c])
  mergeSplitsAmended size overlap separator splits [] none

/-- Summary statistics of one metric, from `aggregate_metrics`
(src/metrics.py lines 181-188).  `np.std` returns the square root of
`varianceVal`; the square root of a rational is irrational in general, so
the model carries the variance, which determines the standard deviation. -/
structure AggStats where
  mean : ℚ
  median : ℚ
  varianceVal : ℚ
  minVal : ℚ
  maxVal : ℚ
deriving DecidableEq, Repr

/-- The `np.mean`/`np.median`/`np.std`/`np.min`/`np.max` block of
`aggregate_metrics`, on a non-empty value list (the source guards with
`if values:`).  `np.median` of an even-length list is the average of the
two middle elements of the sorted values. -/
def summarize (values : List ℚ) : AggStats :=
  let n := values.length
  let mean := values.sum / (n : ℚ)
  let sorted := values.insertionSort (· ≤ ·)
  { mean := mean
    median :=
      if n % 2 = 1 then sorted.getD (n / 2) 0
      else (sorted.getD (n / 2 - 1) 0 + sorted.getD (n / 2) 0) / 2
    varianceVal := (values.map (fun v => (v - mean) ^ 2)).sum / (n : ℚ)
    minVal := match values with | [] => 0 | v :: vs => vs.foldl min v
    maxVal := match values with | [] => 0 | v :: vs => vs.foldl max v }

/-- `aggregate_metrics` (src/metrics.py lines 161-190): metric names are
taken from the first dictionary (`all_metrics[0].keys()`); for each such
name the values are collected from every dictionary containing the name,
and a statistics entry is emitted when any value was found.  Python dicts
are association lists with first-match lookup. -/
def aggregate_metrics (all_metrics : List (List (String × ℚ))) :
    List (String × AggStats) :=
  match all_metrics with
  | [] => []
  | m0 :: rest =>
    (m0.map Prod.fst).filterMap (fun name =>
      let values := (m0 :: rest).filterMap (fun m => m.lookup name)
      if values ≠ [] then some (name, summarize values) else none)

/-- Comparison key of the stable ascending argsort of a score list: sort by
score, breaking ties by original position. -/
def argsortKey (scores : List ℚ) (i j : ℕ) : Prop :=
  scores.getD i 0 < scores.getD j 0 ∨ (scores.getD i 0 = scores.getD j 0 ∧ i ≤ j)

instance (scores : List ℚ) : DecidableRel (argsortKey scores) := fun i j =>
  inferInstanceAs (Decidable
    (scores.getD i 0 < scores.getD j 0 ∨ (scores.getD i 0 = scores.getD j 0 ∧ i ≤ j)))

instance (scores : List ℚ) : IsTotal ℕ (argsortKey scores) := by
  constructor
  intro i j
  rcases lt_trichotomy (scores.getD i 0) (scores.getD j 0) with h | h | h
  · exact Or.inl (Or.inl h)
  · rcases Nat.le_total i j with hij | hij
    · exact Or.inl (Or.inr ⟨h, hij⟩)
    · exact Or.inr (Or.inr ⟨h.symm, hij⟩)
  · exact Or.inr (Or.inl h)

instance (scores : List ℚ) : IsTrans ℕ (argsortKey scores) := by
  constructor
  intro i j k hij hjk
  rcases hij with h1 | ⟨e1, l1⟩
  · rcases hjk with h2 | ⟨e2, _⟩
    · exact Or.inl (h1.trans h2)
    · exact Or.inl (lt_of_lt_of_le h1 (le_of_eq e2))
  · rcases hjk with h2 | ⟨e2, l2⟩
    · exact Or.inl (lt_of_le_of_lt (le_of_eq e1) h2)
    · exact Or.inr ⟨e1.trans e2, l1.trans l2⟩

/-- `np.argsort(scores)[::-1]` as used by `Evaluator._retrieve_chunks`
(src/evaluation.py line 224) and `ArxivRAG.query` (src/rag.py line 37):
an ascending argsort (modelled as the stable sort, ties by original
position, which is what numpy produces on these inputs) followed by full
reversal. -/
def argsortDesc (scores : List ℚ) : List ℕ :=
  ((List.range scores.length).insertionSort (argsortKey scores)).reverse

/-- The retrieval step of `Evaluator._retrieve_chunks` (src/evaluation.py
lines 208-230) and `ArxivRAG.query` (src/rag.py lines 17-55) after the
external `sklearn` `cosine_similarity` call: `scores` is the similarity
row (one cosine similarity per candidate, computed by the external
embedding/similarity collaborators), and the result pairs each selected
candidate index with its score, in the order `np.argsort(scores)[::-1][:k]`. -/
def retrieve_top_k (scores : List ℚ) (k : ℕ) : List (ℕ × ℚ) :=
  ((argsortDesc scores).take k).map (fun i => (i, scores.getD i 0))

instance {ε α : Type} [DecidableEq ε] [DecidableEq α] : DecidableEq (Except ε α) := fun x y =>
  match x, y with
  | .error a, .error b =>
    if h : a = b then .isTrue (h ▸ rfl)
    else .isFalse (fun hc => h (by rw [Except.error.injEq] at hc; exact hc))
  | .ok a, .ok b =>
    if h : a = b then .isTrue (h ▸ rfl)
    else .isFalse (fun hc => h (by rw [Except.ok.injEq] at hc; exact hc))
  | .error _, .ok _ => .isFalse (fun hc => Except.noConfusion hc)
  | .ok _, .error _ => .isFalse (fun hc => Except.noConfusion hc)

/-- A string is non-blank when it contains a non-whitespace character;
`if chunk.strip():` in the source is exactly this test. -/
def nonBlank (l : List Char) : Prop := ∃ c ∈ l, pyIsSpace c = false

lemma pyStrip_eq_nil_iff {l : List Char} :
    pyStrip l = [] ↔ ∀ c ∈ l, pyIsSpace c = true := by
  unfold pyStrip
  rw [List.reverse_eq_nil_iff, List.dropWhile_eq_nil_iff]
  constructor
  · intro h c hc
    by_cases hmem : c ∈ l.dropWhile pyIsSpace
    · exact h c (List.mem_reverse.2 hmem)
    · have hsplit := List.takeWhile_append_dropWhile (p := pyIsSpace) (l := l)
      have : c ∈ l.takeWhile pyIsSpace := by
        have := hsplit ▸ hc
        rcases List.mem_append.1 this with h1 | h1
        · exact h1
        · exact absurd h1 hmem
      exact List.mem_takeWhile_imp this
  · intro h c hc
    have hc' : c ∈ l.dropWhile pyIsSpace := List.mem_reverse.1 hc
    have hsub : List.Sublist (l.dropWhile pyIsSpace) l := List.dropWhile_sublist pyIsSpace
    exact h c (hsub.subset hc')

lemma pyStrip_ne_nil_iff {l : List Char} : pyStrip l ≠ [] ↔ nonBlank l := by
  rw [Ne, pyStrip_eq_nil_iff]
  unfold nonBlank
  push_neg
  simp [Bool.not_eq_true]

lemma nonBlank_pyStrip_of_ne_nil {l : List Char} (h : pyStrip l ≠ []) :
    nonBlank (pyStrip l) := by
  have hdrop : (l.dropWhile pyIsSpace).reverse.dropWhile pyIsSpace ≠ [] := by
    intro hcon
    exact h (by simp [pyStrip, hcon])
  refine ⟨((l.dropWhile pyIsSpace).reverse.dropWhile pyIsSpace).head hdrop, ?_, ?_⟩
  · unfold pyStrip
    exact List.mem_reverse.2 (List.head_mem hdrop)
  · exact List.head_dropWhile_not _ _ hdrop

lemma pyStrip_pyStrip_ne_nil {l : List Char} (h : pyStrip l ≠ []) :
    pyStrip (pyStrip l) ≠ [] :=
  pyStrip_ne_nil_iff.2 (nonBlank_pyStrip_of_ne_nil h)

lemma nonBlank_append_left {a b : List Char} (h : nonBlank a) : nonBlank (a ++ b) := by
  obtain ⟨c, hc, hcs⟩ := h
  exact ⟨c, List.mem_append_left _ hc, hcs⟩

lemma nonBlank_append_right {a b : List Char} (h : nonBlank b) : nonBlank (a ++ b) := by
  obtain ⟨c, hc, hcs⟩ := h
  exact ⟨c, List.mem_append_right _ hc, hcs⟩

lemma nonBlank_joinWith (sep : List Char) :
    ∀ (l : List (List Char)) (x : List Char), x ∈ l → nonBlank x →
      nonBlank (joinWith sep l)
  | [], x, hx, _ => absurd hx (List.not_mem_nil x)
  | [a], x, hx, h => by
    rw [List.mem_singleton] at hx
    simpa [joinWith] using hx ▸ h
  | a :: b :: t, x, hx, h => by
    rw [joinWith]
    rcases List.mem_cons.1 hx with hx | hx
    · exact nonBlank_append_left (nonBlank_append_left (hx ▸ h))
    · exact nonBlank_append_right (nonBlank_joinWith sep (b :: t) x hx h)

lemma slidingAux_nonBlank {α : Type} (size step : ℕ) (f : List α → List Char) :
    ∀ (fuel : ℕ) (xs : List α) (ch : List Char),
      ch ∈ slidingAux size step f fuel xs → pyStrip ch ≠ []
  | 0, _, ch, h => absurd h (by simp [slidingAux])
  | _ + 1, [], ch, h => absurd h (by simp [slidingAux])
  | fuel + 1, x :: rest, ch, h => by
    rw [slidingAux] at h
    rcases List.mem_append.1 h with h | h
    · split at h
      · rw [List.mem_singleton] at h
        exact h ▸ ‹pyStrip (f ((x :: rest).take size)) ≠ []›
      · cases h
    · exact slidingAux_nonBlank size step f fuel _ ch h

lemma slidingChunks_nonBlank {α : Type} (size overlap : ℕ) (f : List α → List Char)
    (xs : List α) : ∀ ch ∈ slidingChunks size overlap f xs, pyStrip ch ≠ [] := by
  intro ch h
  unfold slidingChunks at h
  split at h
  · split at h
    · cases h
    · split at h
      · rw [List.mem_singleton] at h
        exact h ▸ ‹pyStrip (f (xs.take size)) ≠ []›
      · cases h
  · exact slidingAux_nonBlank size (size - overlap) f _ xs ch h

lemma mergeSplits_nonBlank (size overlap : ℕ) (sep : List Char) :
    ∀ (splits : List (List Char)) (current previous ch : List Char),
      ch ∈ mergeSplits size overlap sep splits current previous → pyStrip ch ≠ []
  | [], current, _, ch, h => by
    rw [mergeSplits] at h
    split at h
    · rw [List.mem_singleton] at h
      exact h ▸ pyStrip_pyStrip_ne_nil ‹pyStrip current ≠ []›
    · cases h
  | s :: rest, current, previous, ch, h => by
    rw [mergeSplits] at h
    split at h
    · exact mergeSplits_nonBlank size overlap sep rest _ _ ch h
    · rcases List.mem_append.1 h with h | h
      · split at h
        · rw [List.mem_singleton] at h
          exact h ▸ pyStrip_pyStrip_ne_nil ‹pyStrip current ≠ []›
        · cases h
      · exact mergeSplits_nonBlank size overlap sep rest _ _ ch h

lemma sentenceOverlap_mem (overlap : ℕ) :
    ∀ (l acc : List (List Char)) (txt x : List Char),
      x ∈ (sentenceOverlap overlap l acc txt).1 → x ∈ l ∨ x ∈ acc
  | [], _, _, _, h => Or.inr h
  | sent :: rest, acc, txt, x, h => by
    rw [sentenceOverlap] at h
    split at h
    · rcases sentenceOverlap_mem overlap rest (sent :: acc) _ x h with h | h
      · exact Or.inl (List.mem_cons_of_mem _ h)
      · rcases List.mem_cons.1 h with h | h
        · exact Or.inl (h ▸ List.mem_cons_self _ _)
        · exact Or.inr h
    · exact Or.inr h

lemma sentenceLoop_nonBlank (size overlap : ℕ) :
    ∀ (sents current : List (List Char)) (curSize : ℕ),
      (∀ s ∈ sents, nonBlank s) → (∀ s ∈ current, nonBlank s) →
      ∀ ch ∈ sentenceLoop size overlap sents current curSize, pyStrip ch ≠ []
  | [], current, _, _, hcur, ch, h => by
    rw [sentenceLoop] at h
    split at h
    · rw [List.mem_singleton] at h
      obtain ⟨c0, hc0⟩ := List.exists_mem_of_ne_nil current ‹current ≠ []›
      exact h ▸ pyStrip_ne_nil_iff.2 (nonBlank_joinWith [' '] current c0 hc0 (hcur c0 hc0))
    · cases h
  | sent :: rest, current, curSize, hsents, hcur, ch, h => by
    rw [sentenceLoop] at h
    split at h
    case isTrue hcond =>
      rcases List.mem_cons.1 h with h | h
      · obtain ⟨c0, hc0⟩ := List.exists_mem_of_ne_nil current hcond.2
        exact h ▸ pyStrip_ne_nil_iff.2 (nonBlank_joinWith [' '] current c0 hc0 (hcur c0 hc0))
      · refine sentenceLoop_nonBlank size overlap rest _ _
          (fun s hs => hsents s (List.mem_cons_of_mem _ hs)) ?_ ch h
        intro s hs
        rcases List.mem_append.1 hs with hs | hs
        · by_cases hov : 0 < overlap
          · rw [if_pos hov] at hs
            rcases sentenceOverlap_mem overlap current.reverse [] [] s hs with h1 | h1
            · exact hcur s (List.mem_reverse.1 h1)
            · cases h1
          · rw [if_neg hov] at hs
            cases hs
        · rw [List.mem_singleton] at hs
          exact hs ▸ hsents sent (List.mem_cons_self _ _)
    case isFalse =>
      refine sentenceLoop_nonBlank size overlap rest _ _
        (fun s hs => hsents s (List.mem_cons_of_mem _ hs)) ?_ ch h
      intro s hs
      rcases List.mem_append.1 hs with hs | hs
      · exact hcur s hs
      · rw [List.mem_singleton] at hs
        exact hs ▸ hsents sent (List.mem_cons_self _ _)

lemma mem_zipWith_exists {α β γ : Type} (f : α → β → γ) :
    ∀ (l1 : List α) (l2 : List β) (c : γ),
      c ∈ List.zipWith f l1 l2 → ∃ a ∈ l1, ∃ b ∈ l2, c = f a b
  | [], _, c, h => absurd h (by simp)
  | _ :: _, [], c, h => absurd h (by simp)
  | a :: t1, b :: t2, c, h => by
    rw [List.zipWith_cons_cons] at h
    rcases List.mem_cons.1 h with h | h
    · exact ⟨a, List.mem_cons_self _ _, b, List.mem_cons_self _ _, h⟩
    · obtain ⟨a', ha, b', hb, hc⟩ := mem_zipWith_exists f t1 t2 c h
      exact ⟨a', List.mem_cons_of_mem _ ha, b', List.mem_cons_of_mem _ hb, hc⟩

lemma paragraph_chunking_nonBlank (overlap : ℕ) (text : List Char) :
    ∀ ch ∈ paragraph_chunking overlap text, pyStrip ch ≠ [] := by
  intro ch h
  unfold paragraph_chunking at h
  have hp : ∀ p ∈ ((splitOnSub ['\n', '\n'] text).map pyStrip).filter (fun p => p ≠ []),
      pyStrip p ≠ [] := by
    intro p hp
    obtain ⟨hp1, hp2⟩ := List.mem_filter.1 hp
    obtain ⟨q, _, rfl⟩ := List.mem_map.1 hp1
    exact pyStrip_pyStrip_ne_nil (by simpa using hp2)
  split at h
  · exact hp ch h
  · split at h
    · cases h
    case h_2 p0 rest hps =>
      rcases List.mem_cons.1 h with h | h
      · exact hp ch (h ▸ hps ▸ List.mem_cons_self _ _)
      · obtain ⟨prev, _, para, hpara, rfl⟩ := mem_zipWith_exists _ (p0 :: rest) rest ch h
        have hpb : nonBlank para :=
          pyStrip_ne_nil_iff.1 (hp para (hps ▸ List.mem_cons_of_mem _ hpara))
        exact pyStrip_ne_nil_iff.2 (nonBlank_append_right hpb)

lemma argsortDesc_perm (scores : List ℚ) :
    (argsortDesc scores).Perm (List.range scores.length) :=
  (List.reverse_perm _).trans (List.perm_insertionSort _ _)

lemma argsortDesc_nodup (scores : List ℚ) : (argsortDesc scores).Nodup :=
  ((argsortDesc_perm scores).nodup_iff).2 (List.nodup_range _)

lemma argsortDesc_length (scores : List ℚ) :
    (argsortDesc scores).length = scores.length := by
  simpa using (argsortDesc_perm scores).length_eq

lemma argsortDesc_pairwise (scores : List ℚ) :
    (argsortDesc scores).Pairwise (fun i j => argsortKey scores j i) :=
  List.pairwise_reverse.2 (List.sorted_insertionSort _ _)

lemma argsortDesc_mem_lt (scores : List ℚ) {i : ℕ} (h : i ∈ argsortDesc scores) :
    i < scores.length :=
  List.mem_range.1 ((argsortDesc_perm scores).mem_iff.1 h)

lemma dedupFilter_card (l rel : List String) :
    ((l.dedup.filter (fun x => x ∈ rel)).length : ℕ) =
      (l.toFinset ∩ rel.toFinset).card := by
  have nd : (l.dedup.filter (fun x => decide (x ∈ rel))).Nodup := l.nodup_dedup.filter _
  have ht : (l.dedup.filter (fun x => decide (x ∈ rel))).toFinset =
      l.toFinset ∩ rel.toFinset := by
    ext x
    simp [List.mem_filter, List.mem_dedup]
  rw [← List.toFinset_card_of_nodup nd, ht]

lemma lookup_some_of_mem_keys :
    ∀ (l : List (String × ℚ)) (a : String), a ∈ l.map Prod.fst →
      ∃ v, l.lookup a = some v
  | [], a, h => absurd h (by simp)
  | (k, v) :: t, a, h => by
    by_cases hak : a = k
    · exact ⟨v, by simp [List.lookup, hak]⟩
    · have h' : a = k ∨ ∃ x, (a, x) ∈ t := by simpa using h
      rcases h' with h1 | ⟨x, hx⟩
      · exact absurd h1 hak
      · obtain ⟨w, hw⟩ := lookup_some_of_mem_keys t a (List.mem_map.2 ⟨(a, x), hx, rfl⟩)
        have hbeq : (a == k) = false := beq_eq_false_iff_ne.2 hak
        exact ⟨w, by simp [List.lookup, hbeq, hw]⟩

lemma mergeSplits_eq_amended (size overlap : ℕ) (sep : List Char) :
    ∀ (splits : List (List Char)) (current previous : List Char),
      mergeSplitsAmended size overlap sep splits current
        (if previous = [] then none else some previous) =
      mergeSplits size overlap sep splits current previous
  | [], current, previous => by
    rw [mergeSplitsAmended, mergeSplits]
  | s :: rest, current, previous => by
    rw [mergeSplitsAmended, mergeSplits]
    split
    · exact mergeSplits_eq_amended size overlap sep rest _ previous
    · by_cases hstrip : pyStrip current = []
      · by_cases hprev : previous = []
        · have key := mergeSplits_eq_amended size overlap sep rest (s ++ sep) previous
          rw [if_pos hprev] at key
          simpa [hstrip, hprev] using key
        · by_cases hov : 0 < overlap
          · have key := mergeSplits_eq_amended size overlap sep rest
              (pyTakeLast overlap previous ++ s ++ sep) previous
            rw [if_neg hprev] at key
            simpa [hstrip, hprev, hov] using key
          · have key := mergeSplits_eq_amended size overlap sep rest (s ++ sep) previous
            rw [if_neg hprev] at key
            simpa [hstrip, hprev, hov] using key
      · have hcur : current ≠ [] := fun hc => hstrip (by simp [hc, pyStrip])
        by_cases hov : 0 < overlap
        · have key := mergeSplits_eq_amended size overlap sep rest
            (pyTakeLast overlap current ++ s ++ sep) current
          rw [if_neg hcur] at key
          simpa [hstrip, hcur, hov] using key
        · have key := mergeSplits_eq_amended size overlap sep rest (s ++ sep) current
          rw [if_neg hcur] at key
          simpa [hstrip, hcur, hov] using key


/-- Claim C2 (corrected), counterexample: `calculate_recall_at_k` applied to
`retrieved_ids = ["a", "b", "c"]`, `relevant_ids = ["c", "z"]`, `k = 2`
does not return 0.5 — the top-2 retrieved ids `["a", "b"]` contain no
relevant id, so the source computes `0 / 2`. -/
theorem claim_c2_counterexample :
    calculate_recall_at_k ["a", "b", "c"] ["c", "z"] 2 ≠ 1 / 2 := by
  unfold calculate_recall_at_k
  rw [if_neg (by decide : ¬(["c", "z"] = ([] : List String))),
    show (((["a", "b", "c"].take 2).dedup.filter (fun x => x ∈ ["c", "z"])).length) = 0 from by
      decide]
  norm_num

/-- Claim C2 (corrected): `calculate_recall_at_k` applied to
`retrieved_ids = ["a", "b", "c"]`, `relevant_ids = ["c", "z"]`, `k = 2`
returns 0.0, because the only relevant retrieved id `"c"` sits at rank 3,
outside the top 2. -/
theorem claim_c2_recall_at_two_is_zero :
    calculate_recall_at_k ["a", "b", "c"] ["c", "z"] 2 = 0 := by
  unfold calculate_recall_at_k
  rw [if_neg (by decide : ¬(["c", "z"] = ([] : List String))),
    show (((["a", "b", "c"].take 2).dedup.filter (fun x => x ∈ ["c", "z"])).length) = 0 from by
      decide]
  norm_num

/-- Claim C3 (corrected), counterexample: `chunk_text` on `"abcdefghij"`
with the fixed strategy, `chunk_size = 4`, `chunk_overlap = 2` does not
return exactly the four chunks `["abcd", "cdef", "efgh", "ghij"]`: the
window start still satisfies `start < len` at position 8, so a fifth
chunk `"ij"` is emitted. -/
theorem claim_c3_counterexample :
    chunk_text (Chunker.mk "fixed" 4 2 none (fun _ => [])) "abcdefghij".toList ≠
      .ok (["abcd", "cdef", "efgh", "ghij"].map String.toList) := by
  decide

/-- Claim C3 (corrected): `chunk_text` on `"abcdefghij"` with the fixed
strategy, `chunk_size = 4`, `chunk_overlap = 2` returns the five chunks
`["abcd", "cdef", "efgh", "ghij", "ij"]` — the four claimed windows plus
the final short window starting at position 8. -/
theorem claim_c3_fixed_chunks :
    chunk_text (Chunker.mk "fixed" 4 2 none (fun _ => [])) "abcdefghij".toList =
      .ok (["abcd", "cdef", "efgh", "ghij", "ij"].map String.toList) := by
  decide

/-- Claim C5 (corrected), counterexample: `chunk_text` with the unrecognized
strategy name `"magic"` does not fail on every input text — for the empty
text it returns the empty chunk list before the strategy name is ever
inspected. -/
theorem claim_c5_counterexample :
    ("magic" ∉ ["fixed", "recursive", "paragraph", "token", "sentence"]) ∧
      chunk_text (Chunker.mk "magic" 500 50 none (fun _ => [])) [] = .ok [] := by
  exact ⟨by decide, rfl⟩

/-- Claim C5 (corrected): for every non-empty input text, `chunk_text`
called with a strategy name outside
`{fixed, recursive, paragraph, token, sentence}` fails with the
invalid-configuration error and never falls back to a default strategy;
the empty text is the only input on which the strategy name is not
checked. -/
theorem claim_c5_unknown_strategy_error (c : Chunker) (text : List Char)
    (htext : text ≠ [])
    (hstrat : c.strategy ∉ ["fixed", "recursive", "paragraph", "token", "sentence"]) :
    chunk_text c text = .error ("Unknown strategy: " ++ c.strategy) := by
  simp only [List.mem_cons, List.not_mem_nil, or_false, not_or] at hstrat
  obtain ⟨h1, h2, h3, h4, h5⟩ := hstrat
  unfold chunk_text
  rw [if_neg htext, if_neg h1, if_neg h2, if_neg h3, if_neg h4, if_neg h5]

/-- Witness for claim C5 at a concrete input: strategy `"magic"` on the
one-character text `"a"` raises the invalid-configuration error. -/
theorem claim_c5_witness :
    (['a'] ≠ ([] : List Char)) ∧
      ("magic" ∉ ["fixed", "recursive", "paragraph", "token", "sentence"]) ∧
      chunk_text (Chunker.mk "magic" 500 50 none (fun _ => [])) ['a'] =
        .error "Unknown strategy: magic" :=
  ⟨by decide, by decide,
    claim_c5_unknown_strategy_error (Chunker.mk "magic" 500 50 none (fun _ => [])) ['a']
      (by decide) (by decide)⟩

/-- Claim C10 (confirmed): `chunk_text` checks for empty input before
validating the strategy name — for the empty text it returns the empty
chunk list without raising, whatever the strategy name (including
unrecognized ones) and the other chunker fields. -/
theorem claim_c10_empty_text (c : Chunker) : chunk_text c [] = .ok [] := by
  unfold chunk_text
  rw [if_pos rfl]

/-- Claim C6 (confirmed): for every `retrieved_ids` list, `relevant_ids`
list and `k`, `calculate_recall_at_k` returns the size of the intersection
of the set of top-`k` retrieved ids with the set of relevant ids, divided
by the number of relevant ids, when `relevant_ids` is non-empty; and it
returns 0 — a value, not an error — when `relevant_ids` is empty. -/
theorem claim_c6_recall_formula (retrieved_ids relevant_ids : List String) (k : ℕ) :
    calculate_recall_at_k retrieved_ids relevant_ids k =
      if relevant_ids = [] then 0
      else (((retrieved_ids.take k).toFinset ∩ relevant_ids.toFinset).card : ℚ) /
        relevant_ids.length := by
  unfold calculate_recall_at_k
  by_cases h : relevant_ids = []
  · rw [if_pos h, if_pos h]
  · rw [if_neg h, if_neg h, dedupFilter_card]

/-- Claim C7 (confirmed): for fixed `retrieved_ids` and `relevant_ids` and
cutoffs `k1 ≤ k2`, `calculate_recall_at_k` at `k1` is at most
`calculate_recall_at_k` at `k2`: recall@k is monotonically non-decreasing
in `k`. -/
theorem claim_c7_recall_monotone (retrieved_ids relevant_ids : List String)
    (k1 k2 : ℕ) (h : k1 ≤ k2) :
    calculate_recall_at_k retrieved_ids relevant_ids k1 ≤
      calculate_recall_at_k retrieved_ids relevant_ids k2 := by
  unfold calculate_recall_at_k
  by_cases hrel : relevant_ids = []
  · rw [if_pos hrel, if_pos hrel]
  · rw [if_neg hrel, if_neg hrel]
    have hsub : List.Sublist (retrieved_ids.take k1) (retrieved_ids.take k2) := by
      have h1 : retrieved_ids.take k1 = (retrieved_ids.take k2).take k1 := by
        rw [List.take_take, Nat.min_eq_left h]
      rw [h1]
      exact List.take_sublist _ _
    have hmono :
        ((retrieved_ids.take k1).dedup.filter (fun x => x ∈ relevant_ids)).length ≤
          ((retrieved_ids.take k2).dedup.filter (fun x => x ∈ relevant_ids)).length := by
      rw [dedupFilter_card, dedupFilter_card]
      refine Finset.card_le_card (Finset.inter_subset_inter ?_ (fun x hx => hx))
      intro x hx
      exact List.mem_toFinset.2 (hsub.subset (List.mem_toFinset.1 hx))
    have hpos : (0 : ℚ) < relevant_ids.length := by
      have hne : relevant_ids.length ≠ 0 := by
        simpa [List.length_eq_zero] using hrel
      exact_mod_cast Nat.pos_of_ne_zero hne
    exact (div_le_div_iff_of_pos_right hpos).2 (by exact_mod_cast hmono)

/-- Witness for claim C7 at a concrete input: recall@1 of `["a", "b"]`
against `["b"]` is at most recall@2 of the same lists. -/
theorem claim_c7_witness :
    1 ≤ 2 ∧
      calculate_recall_at_k ["a", "b"] ["b"] 1 ≤ calculate_recall_at_k ["a", "b"] ["b"] 2 :=
  ⟨by decide, claim_c7_recall_monotone ["a", "b"] ["b"] 1 2 (by decide)⟩

/-- Claim C8 (corrected), counterexample: recursive chunking of
`"abc de fg"` with `chunk_size = 5`, `chunk_overlap = 2` (separator `" "`)
yields `["abc", "c de", "e fg"]` — the overlap is taken from the untrimmed
buffer `"abc "`, whose last two characters are `"c "` — while the
specified algorithm, seeding from the trimmed just-flushed chunk `"abc"`,
would yield `["abc", "bcde", "defg"]`. -/
theorem claim_c8_counterexample :
    recursive_chunking 5 2 "abc de fg".toList = ["abc", "c de", "e fg"].map String.toList ∧
      recursive_chunking_spec 5 2 "abc de fg".toList =
        ["abc", "bcde", "defg"].map String.toList ∧
      recursive_chunking 5 2 "abc de fg".toList ≠
        recursive_chunking_spec 5 2 "abc de fg".toList :=
  ⟨by decide, by decide, by decide⟩

/-- Claim C8 (corrected): recursive chunking splits on the first separator
of the priority list present in the text and greedily packs pieces until
the next piece (plus separator) would exceed `chunk_size`; on overflow the
buffer is emitted trimmed only when it is non-blank (a whitespace-only
buffer is dropped silently), and the next buffer is seeded with the
trailing `chunk_overlap` characters of the last untrimmed flushed buffer
(which still carries its trailing separator) — not of the trimmed chunk —
before the overflowing piece is appended; the final buffer is flushed at
the end when non-blank. -/
theorem claim_c8_recursive_merge (size overlap : ℕ) (text : List Char) :
    recursive_chunking size overlap text = recursive_chunking_amended size overlap text := by
  unfold recursive_chunking recursive_split recursive_chunking_amended
  have key := mergeSplits_eq_amended size overlap
    (chooseSeparator [['\n', '\n'], ['\n'], ['.', ' '], [' '], []] text)
    (if chooseSeparator [['\n', '\n'], ['\n'], ['.', ' '], [' '], []] text ≠ [] then
      splitOnSub (chooseSeparator [['\n', '\n'], ['\n'], ['.', ' '], [' '], []] text) text
    else text.map (fun c => [c]))
    [] []
  rw [if_pos rfl] at key
  exact key.symm

/-- Claim C4 (corrected), counterexample: aggregating the two per-query
dictionaries `[{}, {"a": 1}]` yields an empty mapping even though the
metric name `"a"` appears in the second dictionary — `aggregate_metrics`
takes its metric names from the first dictionary only. -/
theorem claim_c4_counterexample :
    aggregate_metrics [([] : List (String × ℚ)), [("a", 1)]] = [] ∧
      "a" ∈ ([("a", (1 : ℚ))].map Prod.fst) :=
  ⟨rfl, by decide⟩

/-- Claim C4 (corrected): for a non-empty input sequence,
`aggregate_metrics` produces a statistics entry exactly for the metric
names appearing in the first dictionary (a name occurring only in later
dictionaries gets no entry), each entry aggregating over the values present
in the dictionaries that contain the name; and it returns an empty mapping
for the empty input sequence. -/
theorem claim_c4_aggregate_first_dict (m0 : List (String × ℚ))
    (rest : List (List (String × ℚ))) (name : String) :
    (name ∈ (aggregate_metrics (m0 :: rest)).map Prod.fst ↔ name ∈ m0.map Prod.fst) ∧
      (∀ s, (name, s) ∈ aggregate_metrics (m0 :: rest) →
        s = summarize ((m0 :: rest).filterMap (fun m => m.lookup name))) ∧
      aggregate_metrics ([] : List (List (String × ℚ))) = [] := by
  have hagg : aggregate_metrics (m0 :: rest) =
      (m0.map Prod.fst).filterMap (fun nm =>
        if ((m0 :: rest).filterMap (fun m => m.lookup nm)) ≠ [] then
          some (nm, summarize ((m0 :: rest).filterMap (fun m => m.lookup nm)))
        else none) := rfl
  refine ⟨⟨?_, ?_⟩, ?_, rfl⟩
  · intro h
    rw [hagg] at h
    obtain ⟨p, hp, hfst⟩ := List.mem_map.1 h
    obtain ⟨a, ha, hg⟩ := List.mem_filterMap.1 hp
    split at hg
    · have hpa := Option.some.inj hg
      have h1 : a = name := by
        rw [← hfst, ← hpa]
      exact h1 ▸ ha
    · exact Option.noConfusion hg
  · intro h
    rw [hagg]
    obtain ⟨v, hv⟩ := lookup_some_of_mem_keys m0 name h
    have hvals : ((m0 :: rest).filterMap (fun m => m.lookup name)) ≠ [] := by
      simp [List.filterMap_cons, hv]
    refine List.mem_map.2
      ⟨(name, summarize ((m0 :: rest).filterMap (fun m => m.lookup name))), ?_, rfl⟩
    exact List.mem_filterMap.2 ⟨name, h, by rw [if_pos hvals]⟩
  · intro s hs
    rw [hagg] at hs
    obtain ⟨a, ha, hg⟩ := List.mem_filterMap.1 hs
    split at hg
    · have hpa := Option.some.inj hg
      have h1 : a = name := congrArg Prod.fst hpa
      have h2 : summarize ((m0 :: rest).filterMap (fun m => m.lookup a)) = s :=
        congrArg Prod.snd hpa
      rw [← h2, h1]
    · exact Option.noConfusion hg

lemma fixed_size_chunking_nonBlank (size overlap : ℕ) (text : List Char) :
    ∀ ch ∈ fixed_size_chunking size overlap text, pyStrip ch ≠ [] :=
  slidingChunks_nonBlank size overlap id text

lemma recursive_chunking_nonBlank (size overlap : ℕ) (text : List Char) :
    ∀ ch ∈ recursive_chunking size overlap text, pyStrip ch ≠ [] := by
  intro ch h
  exact mergeSplits_nonBlank size overlap _ _ _ _ ch h

lemma token_based_chunking_nonBlank (c : Chunker) (text : List Char) :
    ∀ ch ∈ token_based_chunking c text, pyStrip ch ≠ [] := by
  intro ch h
  unfold token_based_chunking at h
  rcases htk : c.tokenizer with _ | tk <;> rw [htk] at h
  · exact fixed_size_chunking_nonBlank _ _ _ ch h
  · exact slidingChunks_nonBlank _ _ _ _ ch h

lemma sentence_based_chunking_nonBlank (c : Chunker) (text : List Char)
    (hsent : ∀ s ∈ c.sent_tokenize text, nonBlank s) :
    ∀ ch ∈ sentence_based_chunking c text, pyStrip ch ≠ [] := by
  intro ch h
  exact sentenceLoop_nonBlank c.chunk_size c.chunk_overlap (c.sent_tokenize text) [] 0
    hsent (fun s hs => absurd hs (List.not_mem_nil s)) ch h

/-- Claim C9 (confirmed): whenever `chunk_text` succeeds — in particular
for every text and every strategy in
`{fixed, recursive, paragraph, token, sentence}` — every returned chunk is
non-empty after trimming whitespace.  The sentence strategy delegates
splitting to the external sentence-boundary collaborator
(`nltk.sent_tokenize`), so the hypothesis `hsent` records the property of
that collaborator the source relies on: every sentence it returns contains
a non-whitespace character. -/
theorem claim_c9_chunks_nonblank (c : Chunker) (text : List Char)
    (hsent : ∀ t s, s ∈ c.sent_tokenize t → nonBlank s)
    (chunks : List (List Char)) (hok : chunk_text c text = .ok chunks) :
    ∀ ch ∈ chunks, pyStrip ch ≠ [] := by
  unfold chunk_text at hok
  split at hok
  · rw [Except.ok.injEq] at hok
    subst hok
    intro ch h
    exact absurd h (List.not_mem_nil ch)
  · split at hok
    · rw [Except.ok.injEq] at hok
      subst hok
      exact fixed_size_chunking_nonBlank _ _ _
    · split at hok
      · rw [Except.ok.injEq] at hok
        subst hok
        exact recursive_chunking_nonBlank _ _ _
      · split at hok
        · rw [Except.ok.injEq] at hok
          subst hok
          exact paragraph_chunking_nonBlank _ _
        · split at hok
          · rw [Except.ok.injEq] at hok
            subst hok
            exact token_based_chunking_nonBlank _ _
          · split at hok
            · rw [Except.ok.injEq] at hok
              subst hok
              exact sentence_based_chunking_nonBlank c text (fun s hs => hsent text s hs)
            · exact absurd hok (fun hc => Except.noConfusion hc)

/-- Witness for claim C9 at a concrete input: the fixed strategy with
`chunk_size = 4`, `chunk_overlap = 2` on `"ab cd"` produces the chunks
`["ab c", " cd", "d"]`, each non-empty after trimming whitespace. -/
theorem claim_c9_witness :
    (∀ t s, s ∈ ((Chunker.mk "fixed" 4 2 none (fun _ => [])).sent_tokenize t) → nonBlank s) ∧
      ∀ ch ∈ ["ab c", " cd", "d"].map String.toList, pyStrip ch ≠ [] := by
  have hsent : ∀ t s,
      s ∈ ((Chunker.mk "fixed" 4 2 none (fun _ => [])).sent_tokenize t) → nonBlank s :=
    fun _ s hs => absurd hs (List.not_mem_nil s)
  refine ⟨hsent, ?_⟩
  have hok : chunk_text (Chunker.mk "fixed" 4 2 none (fun _ => [])) "ab cd".toList =
      .ok (["ab c", " cd", "d"].map String.toList) := by decide
  exact claim_c9_chunks_nonblank _ _ hsent _ hok

/-- Claim C1 (corrected), counterexample: with two candidates of equal
score 1 (for instance two identical candidate vectors, whose cosine
similarities with any query coincide) and `k = 2`, the retrieval step
returns `[(1, 1), (0, 1)]`: candidate 1 comes first, so ties are not
broken by original candidate order as a stable descending sort would. -/
theorem claim_c1_counterexample :
    retrieve_top_k [1, 1] 2 = [(1, 1), (0, 1)] ∧
      ¬ (retrieve_top_k [1, 1] 2).Pairwise
          (fun p q : ℕ × ℚ => q.2 < p.2 ∨ (p.2 = q.2 ∧ p.1 < q.1)) :=
  ⟨by decide, by decide⟩

/-- Claim C1 (corrected): for every score row and every `k ≥ 1`, the
retrieval step returns `min k n` pairs `(candidate_index, score)` where the
score is the similarity row entry of that candidate, sorted by score
descending with ties broken by *reversed* original candidate order (the
source reverses an ascending argsort, which flips the order of equal
scores); when fewer than `k` candidates exist, all of them are returned. -/
theorem claim_c1_retrieval (scores : List ℚ) (k : ℕ) (_hk : 1 ≤ k) :
    (retrieve_top_k scores k).length = min k scores.length ∧
      (∀ p ∈ retrieve_top_k scores k, p.1 < scores.length ∧ p.2 = scores.getD p.1 0) ∧
      (retrieve_top_k scores k).Pairwise
        (fun p q => q.2 < p.2 ∨ (p.2 = q.2 ∧ q.1 < p.1)) ∧
      (scores.length ≤ k →
        ((retrieve_top_k scores k).map Prod.fst).Perm (List.range scores.length)) := by
  refine ⟨?_, ?_, ?_, ?_⟩
  · unfold retrieve_top_k
    rw [List.length_map, List.length_take, argsortDesc_length]
  · intro p hp
    unfold retrieve_top_k at hp
    obtain ⟨i, hi, rfl⟩ := List.mem_map.1 hp
    have hmem : i ∈ argsortDesc scores := (List.take_sublist _ _).subset hi
    exact ⟨argsortDesc_mem_lt scores hmem, rfl⟩
  · have hpw := (argsortDesc_pairwise scores).and (argsortDesc_nodup scores)
    have htake := hpw.sublist (List.take_sublist k _)
    unfold retrieve_top_k
    rw [List.pairwise_map]
    refine htake.imp ?_
    intro i j hij
    obtain ⟨hkey, hne⟩ := hij
    rcases hkey with hlt | ⟨heq, hle⟩
    · exact Or.inl hlt
    · exact Or.inr ⟨heq.symm, lt_of_le_of_ne hle (fun hji => hne hji.symm)⟩
  · intro hlen
    unfold retrieve_top_k
    rw [List.take_of_length_le (by rw [argsortDesc_length]; exact hlen), List.map_map]
    have hid : (Prod.fst ∘ fun i => (i, scores.getD i 0)) = id := rfl
    rw [hid, List.map_id]
    exact argsortDesc_perm scores

/-- Witness for claim C1 at a concrete input: retrieval over the score row
`[3, 1, 2]` with `k = 2` returns two pairs, each carrying its candidate's
score, sorted descending with the reversed-order tie rule, and the
all-candidates clause holds vacuously. -/
theorem claim_c1_witness :
    1 ≤ 2 ∧
      ((retrieve_top_k [3, 1, 2] 2).length = min 2 ([3, 1, 2] : List ℚ).length ∧
        (∀ p ∈ retrieve_top_k [3, 1, 2] 2,
          p.1 < ([3, 1, 2] : List ℚ).length ∧ p.2 = ([3, 1, 2] : List ℚ).getD p.1 0) ∧
        (retrieve_top_k [3, 1, 2] 2).Pairwise
          (fun p q => q.2 < p.2 ∨ (p.2 = q.2 ∧ q.1 < p.1)) ∧
        (([3, 1, 2] : List ℚ).length ≤ 2 →
          ((retrieve_top_k [3, 1, 2] 2).map Prod.fst).Perm
            (List.range ([3, 1, 2] : List ℚ).length))) :=
  ⟨by decide, claim_c1_retrieval [3, 1, 2] 2 (by decide)⟩
